import Mathlib

/-!
# Ability Execution Engine — shallow embedding and verification

This file embeds the core of the OpenAgents abilities plugin
(`packages/plugin-abilities/src/executor/index.ts`,
`packages/plugin-abilities/src/validator/index.ts`, the minimal type
definitions in `src/types/index.ts`, the minimal
`src/executor/execution-manager.ts`, and the enforcement-gate portion of
the plugin entry point) and proves or refutes the specification's claims
about it.

Modelling conventions:
* JavaScript string-literal unions (`'running' | 'completed' | 'failed'`,
  step `type` tags, enforcement modes, validation error codes) are kept as
  Lean `String`s, matching the erased runtime representation.
* `Date.now()` is modelled by a `now : Nat` field of the executor context;
  only the presence of timestamps matters to any claim, never their value.
* Subprocess spawning (`child_process.spawn`) is external nondeterminism;
  it is modelled by an oracle `run : ScriptRequest → SpawnOutcome` in the
  executor context.  `SpawnOutcome.ok` is a process that ran to its `close`
  event (with accumulated stdout/stderr and a possibly-null exit code);
  `SpawnOutcome.err` is the `error` event path (spawn failure), which the
  source resolves as `{ stdout, stderr: error.message, exitCode: 1 }`.
* Regular-expression tests used by input validation (`new RegExp(p).test v`)
  are likewise modelled by an oracle `regexTest : String → String → Bool`.
* JS objects used as string-keyed maps are modelled as association lists
  (`List (String × _)`) with first-match lookup.
-/

/-- JS runtime values supplied as ability inputs
(`InputValues = Record<string, unknown>`); the validator distinguishes
exactly the `typeof`/`Array.isArray` classes string, number, boolean,
array and object. Numbers are modelled as integers, the only values the
claims exercise. -/
inductive Value where
  | vstr (s : String)
  | vnum (n : Int)
  | vbool (b : Bool)
  | varr (l : List Value)
  | vobj
deriving Repr

/-- `Array.isArray(value) ? 'array' : typeof value`, as used by
`validateInputs` for the TYPE_MISMATCH check. -/
def Value.typeName : Value → String
  | .vstr _ => "string"
  | .vnum _ => "number"
  | .vbool _ => "boolean"
  | .varr _ => "array"
  | .vobj => "object"

mutual
/-- JavaScript `String(value)` coercion, used when a `{{inputs.NAME}}`
placeholder is substituted. -/
def displayValue : Value → String
  | .vstr s => s
  | .vnum n => toString n
  | .vbool b => if b then "true" else "false"
  | .varr l => displayList l
  | .vobj => "[object Object]"

/-- `Array.prototype.toString` = `join(',')` over coerced elements. -/
def displayList : List Value → String
  | [] => ""
  | [v] => displayValue v
  | v :: rest => displayValue v ++ "," ++ displayList rest
end

/-- `InputValues = Record<string, unknown>`: an association list with
first-match lookup standing in for a JS object. -/
abbrev InputValues := List (String × Value)

/-- `inputs[name]`, `undefined` becoming `none`. -/
def lookupVal (inputs : InputValues) (name : String) : Option Value :=
  List.lookup name inputs

/-- `InputDefinition` from `src/types/index.ts`, extended with the
constraint fields accepted by the validator's `InputDefinitionSchema`
(`pattern`, `enum`, `minLength`, `maxLength`, `min`, `max`). -/
structure InputDefinition where
  type : String
  required : Option Bool := none
  default : Option Value := none
  description : Option String := none
  pattern : Option String := none
  enum : Option (List String) := none
  minLength : Option Int := none
  maxLength : Option Int := none
  min : Option Int := none
  max : Option Int := none
deriving Repr

/-- `validation: { exit_code?: number }` on a script step (the minimal
type definitions keep only `exit_code`). -/
structure StepValidation where
  exit_code : Option Int := none
deriving Repr, DecidableEq

/-- `ScriptStep` from the minimal `src/types/index.ts` (`Step = ScriptStep`).
`type` is kept as a string tag because the enforcement gate dispatches on
`currentStep.type` over the full five-tag table.  `on_failure` is carried
because the validator's `BaseStepSchema` accepts it on every step, but the
minimal executor never reads it. -/
structure Step where
  id : String
  type : String := "script"
  description : Option String := none
  run : String := ""
  needs : Option (List String) := none
  validation : Option StepValidation := none
  cwd : Option String := none
  env : List (String × String) := []
  on_failure : Option String := none
deriving Repr, DecidableEq

/-- The dependency list a step effectively has (`step.needs` with
`undefined` as the empty list). -/
def Step.needsL (s : Step) : List String := s.needs.getD []

/-- `Ability` from the minimal `src/types/index.ts`. -/
structure Ability where
  name : String
  description : String := ""
  inputs : Option (List (String × InputDefinition)) := none
  steps : List Step
deriving Repr

/-- `StepResult` from `src/types/index.ts`. -/
structure StepResult where
  stepId : String
  status : String
  output : Option String := none
  error : Option String := none
  startedAt : Nat := 0
  completedAt : Nat := 0
  duration : Nat := 0
deriving Repr, DecidableEq

/-- `AbilityExecution` from `src/types/index.ts`. -/
structure AbilityExecution where
  id : String
  ability : Ability
  inputs : InputValues
  status : String
  currentStep : Option Step := none
  currentStepIndex : Int := -1
  completedSteps : List StepResult := []
  pendingSteps : List Step := []
  startedAt : Nat := 0
  completedAt : Option Nat := none
  error : Option String := none

/-!
## Dependency resolver (`buildExecutionOrder`)

The source loop repeatedly `find`s the first remaining step whose
dependencies are all in the `completed` set, appends it, records its id
and removes it (`splice` at its index); on `find` returning nothing it
breaks.  The loop removes exactly one element per iteration, so a fuel of
`steps.length` reproduces it exactly.
-/

/-- The `find` predicate: `!step.needs || step.needs.length === 0` or
every dependency is in the completed set. -/
def isEligible (completed : List String) (s : Step) : Bool :=
  match s.needs with
  | none => true
  | some l => l.isEmpty || l.all (fun d => completed.contains d)

/-- `remaining.find(eligible)` together with the subsequent
`splice(indexOf(next), 1)`: returns the first eligible step and the list
with that occurrence removed. -/
def extractFirstEligible (completed : List String) : List Step → Option (Step × List Step)
  | [] => none
  | s :: rest =>
    if isEligible completed s then some (s, rest)
    else (extractFirstEligible completed rest).map (fun p => (p.1, s :: p.2))

/-- The `while (remaining.length > 0)` loop of `buildExecutionOrder`,
with fuel bounding the iteration count (one removal per iteration). -/
def buildLoop : Nat → List Step → List String → List Step
  | 0, _, _ => []
  | _ + 1, [], _ => []
  | fuel + 1, s :: rest, completed =>
    match extractFirstEligible completed (s :: rest) with
    | none => []
    | some (next, remaining) => next :: buildLoop fuel remaining (next.id :: completed)

/-- `buildExecutionOrder` from `src/executor/index.ts`. -/
def buildExecutionOrder (steps : List Step) : List Step :=
  buildLoop steps.length steps []

namespace Resolver

/-- The extraction splits the list around the first eligible element:
everything skipped over was ineligible. -/
theorem extract_split {completed : List String} :
    ∀ {l : List Step} {n : Step} {r : List Step},
      extractFirstEligible completed l = some (n, r) →
      isEligible completed n = true ∧
      ∃ A B, l = A ++ n :: B ∧ r = A ++ B ∧ ∀ s ∈ A, isEligible completed s = false := by
  intro l
  induction l with
  | nil => intro n r h; simp [extractFirstEligible] at h
  | cons x rest ih =>
    intro n r h
    rw [extractFirstEligible] at h
    by_cases hx : isEligible completed x
    · rw [if_pos hx] at h
      obtain ⟨rfl, rfl⟩ := Prod.mk.injEq .. ▸ Option.some.inj h
      exact ⟨hx, [], rest, rfl, rfl, by simp⟩
    · rw [if_neg hx] at h
      cases hm : extractFirstEligible completed rest with
      | none => rw [hm] at h; simp at h
      | some p =>
        obtain ⟨n', r'⟩ := p
        rw [hm] at h
        simp only [Option.map_some'] at h
        obtain ⟨rfl, rfl⟩ := Prod.mk.injEq .. ▸ Option.some.inj h
        obtain ⟨hel, A, B, hl, hr', hA⟩ := ih hm
        refine ⟨hel, x :: A, B, by simp [hl], by simp [hr'], ?_⟩
        intro s hs
        rcases List.mem_cons.mp hs with hs | hs
        · simpa [hs] using hx
        · exact hA s hs

theorem extract_eligible {completed : List String} {l : List Step} {n : Step} {r : List Step}
    (h : extractFirstEligible completed l = some (n, r)) : isEligible completed n = true :=
  (extract_split h).1

theorem extract_none {completed : List String} :
    ∀ {l : List Step}, extractFirstEligible completed l = none →
      ∀ s ∈ l, isEligible completed s = false := by
  intro l
  induction l with
  | nil => intro _ s hs; simp at hs
  | cons x rest ih =>
    intro h s hs
    rw [extractFirstEligible] at h
    by_cases hx : isEligible completed x
    · rw [if_pos hx] at h; simp at h
    · rw [if_neg hx] at h
      rcases List.mem_cons.mp hs with hs | hs
      · simpa [hs] using hx
      · cases hm : extractFirstEligible completed rest with
        | none => exact ih hm s hs
        | some p => rw [hm] at h; simp at h

theorem extract_perm {completed : List String} {l : List Step} {n : Step} {r : List Step}
    (h : extractFirstEligible completed l = some (n, r)) : l.Perm (n :: r) := by
  obtain ⟨-, A, B, hl, hr, -⟩ := extract_split h
  rw [hl, hr]
  exact List.perm_middle

theorem extract_length {completed : List String} {l : List Step} {n : Step} {r : List Step}
    (h : extractFirstEligible completed l = some (n, r)) : r.length + 1 = l.length := by
  have := (extract_perm h).length_eq
  simpa using this.symm

/-- Every step placed by the loop has all its dependencies either in the
incoming completed set or placed earlier in the output. -/
def OrderedOk (completed : List String) : List Step → Prop
  | [] => True
  | s :: rest => (∀ d ∈ s.needsL, d ∈ completed) ∧ OrderedOk (s.id :: completed) rest

theorem eligible_needs_mem {completed : List String} {s : Step}
    (h : isEligible completed s = true) : ∀ d ∈ s.needsL, d ∈ completed := by
  intro d hd
  unfold isEligible at h
  unfold Step.needsL at hd
  cases hn : s.needs with
  | none => rw [hn] at hd; simp at hd
  | some l =>
    rw [hn] at h hd
    simp only [Option.getD_some] at hd
    rcases Bool.or_eq_true .. ▸ h with hemp | hall
    · rw [List.isEmpty_iff] at hemp
      subst hemp; simp at hd
    · have := List.all_eq_true.mp hall d hd
      exact List.mem_of_elem_eq_true this

theorem buildLoop_orderedOk :
    ∀ (fuel : Nat) (remaining : List Step) (completed : List String),
      OrderedOk completed (buildLoop fuel remaining completed) := by
  intro fuel
  induction fuel with
  | zero => intro remaining completed; simp [buildLoop, OrderedOk]
  | succ fuel ih =>
    intro remaining completed
    cases remaining with
    | nil => simp [buildLoop, OrderedOk]
    | cons s rest =>
      rw [buildLoop]
      cases hm : extractFirstEligible completed (s :: rest) with
      | none => simp [OrderedOk]
      | some p =>
        obtain ⟨next, rem⟩ := p
        exact ⟨eligible_needs_mem (extract_eligible hm), ih rem (next.id :: completed)⟩

theorem exists_min_by {α : Type} (f : α → Nat) :
    ∀ (l : List α), l ≠ [] → ∃ m ∈ l, ∀ t ∈ l, f m ≤ f t := by
  intro l
  induction l with
  | nil => intro h; exact absurd rfl h
  | cons x rest ih =>
    intro _
    cases rest with
    | nil => exact ⟨x, by simp, by simp⟩
    | cons y ys =>
      obtain ⟨m, hm, hmin⟩ := ih (by simp)
      by_cases hx : f x ≤ f m
      · refine ⟨x, by simp, ?_⟩
        intro t ht
        rcases List.mem_cons.mp ht with rfl | ht
        · exact le_refl _
        · exact le_trans hx (hmin t ht)
      · refine ⟨m, List.mem_cons_of_mem _ hm, ?_⟩
        intro t ht
        rcases List.mem_cons.mp ht with rfl | ht
        · exact le_of_lt (lt_of_not_le hx)
        · exact hmin t ht

theorem ineligible_has_missing_dep {completed : List String} {s : Step}
    (h : isEligible completed s = false) : ∃ d ∈ s.needsL, d ∉ completed := by
  unfold isEligible at h
  cases hn : s.needs with
  | none => rw [hn] at h; simp at h
  | some l =>
    rw [hn] at h
    rcases Bool.or_eq_false_iff.mp h with ⟨-, hall⟩
    obtain ⟨d, hd, hdc⟩ := List.all_eq_false.mp hall
    have hdc' : d ∉ completed := by simpa using hdc
    exact ⟨d, by simp [Step.needsL, hn, hd], hdc'⟩

/-- If the dependency graph admits a strictly decreasing rank along `needs`
edges (the finite-graph form of acyclicity) and every referenced dependency
is the id of some step, then the selection loop never gets stuck: its output
is a permutation of the remaining steps. -/
theorem buildLoop_perm (steps : List Step) (rank : String → Nat)
    (hrank : ∀ s ∈ steps, ∀ d ∈ s.needsL, rank d < rank s.id)
    (hdeps : ∀ s ∈ steps, ∀ d ∈ s.needsL, ∃ t ∈ steps, t.id = d) :
    ∀ (fuel : Nat) (remaining : List Step) (completed : List String),
      remaining.length ≤ fuel →
      (∀ s ∈ remaining, s ∈ steps) →
      (∀ d, (∃ t ∈ steps, t.id = d) → d ∉ completed → ∃ t ∈ remaining, t.id = d) →
      (buildLoop fuel remaining completed).Perm remaining := by
  intro fuel
  induction fuel with
  | zero =>
    intro remaining completed hlen _ _
    have : remaining = [] := List.eq_nil_of_length_eq_zero (Nat.le_zero.mp hlen)
    subst this
    simp [buildLoop]
  | succ fuel ih =>
    intro remaining completed hlen hsub hclose
    cases remaining with
    | nil => simp [buildLoop]
    | cons x rest =>
      rw [buildLoop]
      cases hm : extractFirstEligible completed (x :: rest) with
      | none =>
        -- impossible: a rank-minimal remaining step would be eligible
        exfalso
        obtain ⟨m, hmem, hmin⟩ := exists_min_by (fun s => rank s.id) (x :: rest) (by simp)
        have hinel : isEligible completed m = false := extract_none hm m hmem
        obtain ⟨d, hd, hdnc⟩ := ineligible_has_missing_dep hinel
        have hmsteps : m ∈ steps := hsub m hmem
        obtain ⟨t, htmem, htid⟩ := hclose d (hdeps m hmsteps d hd) hdnc
        have h1 : rank d < rank m.id := hrank m hmsteps d hd
        have h2 : rank m.id ≤ rank t.id := hmin t htmem
        rw [htid] at h2
        exact absurd h1 (not_lt_of_le h2)
      | some p =>
        obtain ⟨next, rem⟩ := p
        have hperm := extract_perm hm
        have hlen' : rem.length ≤ fuel := by
          have hl2 := extract_length hm
          simp at hlen hl2
          omega
        have hsub' : ∀ s ∈ rem, s ∈ steps := by
          intro s hs
          exact hsub s (hperm.mem_iff.mpr (List.mem_cons_of_mem _ hs))
        have hclose' : ∀ d, (∃ t ∈ steps, t.id = d) → d ∉ (next.id :: completed) →
            ∃ t ∈ rem, t.id = d := by
          intro d hdex hdnc
          have hne : d ≠ next.id := fun h => hdnc (h ▸ List.mem_cons_self _ _)
          have hnc : d ∉ completed := fun h => hdnc (List.mem_cons_of_mem _ h)
          obtain ⟨t, htmem, htid⟩ := hclose d hdex hnc
          have : t ∈ next :: rem := hperm.mem_iff.mp htmem
          rcases List.mem_cons.mp this with rfl | hmem'
          · exact absurd htid.symm hne
          · exact ⟨t, hmem', htid⟩
        have := ih rem (next.id :: completed) hlen' hsub' hclose'
        exact (this.cons next).trans hperm.symm

theorem orderedOk_split :
    ∀ (pre : List Step) (completed : List String) (s : Step) (post : List Step),
      OrderedOk completed (pre ++ s :: post) →
      ∀ d ∈ s.needsL, d ∈ completed ∨ ∃ t ∈ pre, t.id = d := by
  intro pre
  induction pre with
  | nil =>
    intro completed s post h d hd
    exact Or.inl (h.1 d hd)
  | cons p pre' ih =>
    intro completed s post h d hd
    rcases ih (p.id :: completed) s post h.2 d hd with hmem | ⟨t, htmem, htid⟩
    · rcases List.mem_cons.mp hmem with rfl | hmem'
      · exact Or.inr ⟨p, List.mem_cons_self _ _, rfl⟩
      · exact Or.inl hmem'
    · exact Or.inr ⟨t, List.mem_cons_of_mem _ htmem, htid⟩

/-- Steps with no declared dependencies. -/
def noNeeds (s : Step) : Bool := s.needsL.isEmpty

theorem noNeeds_eligible {s : Step} (h : noNeeds s = true) (completed : List String) :
    isEligible completed s = true := by
  unfold noNeeds Step.needsL at h
  unfold isEligible
  cases hn : s.needs with
  | none => rfl
  | some l => rw [hn] at h; simp only [Option.getD_some] at h; simp [h]

/-- The loop emits the dependency-free steps in exactly their order in
`remaining`: the selection rule can never jump over an always-eligible
step to pick a later one. -/
theorem buildLoop_filter_noNeeds :
    ∀ (fuel : Nat) (remaining : List Step) (completed : List String),
      remaining.length ≤ fuel →
      (buildLoop fuel remaining completed).filter noNeeds = remaining.filter noNeeds := by
  intro fuel
  induction fuel with
  | zero =>
    intro remaining completed hlen
    have : remaining = [] := List.eq_nil_of_length_eq_zero (Nat.le_zero.mp hlen)
    subst this
    simp [buildLoop]
  | succ fuel ih =>
    intro remaining completed hlen
    cases remaining with
    | nil => simp [buildLoop]
    | cons x rest =>
      rw [buildLoop]
      cases hm : extractFirstEligible completed (x :: rest) with
      | none =>
        have hall := extract_none hm
        have : (x :: rest).filter noNeeds = [] := by
          rw [List.filter_eq_nil_iff]
          intro s hs hP
          have := noNeeds_eligible hP completed
          rw [hall s hs] at this
          exact Bool.noConfusion this
        simp [this]
      | some p =>
        obtain ⟨next, rem⟩ := p
        obtain ⟨-, A, B, hsplit, hrem, hA⟩ := extract_split hm
        have hAnil : A.filter noNeeds = [] := by
          rw [List.filter_eq_nil_iff]
          intro s hs hP
          have := noNeeds_eligible hP completed
          rw [hA s hs] at this
          exact Bool.noConfusion this
        have hlen' : rem.length ≤ fuel := by
          have hl2 := extract_length hm
          simp at hlen hl2
          omega
        have hrec := ih rem (next.id :: completed) hlen'
        rw [hsplit, hrem] at *
        by_cases hP : noNeeds next
        · simp [List.filter_append, hAnil, hP, hrec]
        · simp [List.filter_append, hAnil, hP, hrec]

end Resolver

/-- C1: for a step list whose `needs` graph is acyclic (witnessed, as always
possible for a finite acyclic graph, by a rank strictly decreasing along
dependency edges), with unique step ids and every dependency naming an
existing step, `buildExecutionOrder` returns a permutation of the input in
which every step appears strictly after every step named in its `needs`.
The selection rule itself (first remaining step in declaration order whose
dependencies are all placed) is the definition `extractFirstEligible` /
`buildLoop` embedded from the source. -/
theorem buildExecutionOrder_correct (steps : List Step) (rank : String → Nat)
    (hnodup : (steps.map Step.id).Nodup)
    (hrank : ∀ s ∈ steps, ∀ d ∈ s.needsL, rank d < rank s.id)
    (hdeps : ∀ s ∈ steps, ∀ d ∈ s.needsL, ∃ t ∈ steps, t.id = d) :
    (buildExecutionOrder steps).Perm steps ∧
    ∀ pre s post, buildExecutionOrder steps = pre ++ s :: post →
      ∀ d ∈ s.needsL, (∃ t ∈ pre, t.id = d) ∧ ∀ t' ∈ s :: post, t'.id ≠ d := by
  have hperm : (buildExecutionOrder steps).Perm steps := by
    unfold buildExecutionOrder
    exact Resolver.buildLoop_perm steps rank hrank hdeps steps.length steps []
      (le_refl _) (fun s h => h) (fun d hex _ => hex)
  refine ⟨hperm, ?_⟩
  intro pre s post hsplit d hd
  have hord := Resolver.buildLoop_orderedOk steps.length steps []
  rw [show buildLoop steps.length steps [] = buildExecutionOrder steps from rfl, hsplit] at hord
  have hpre : ∃ t ∈ pre, t.id = d := by
    rcases Resolver.orderedOk_split pre [] s post hord d hd with hmem | h
    · simp at hmem
    · exact h
  refine ⟨hpre, ?_⟩
  obtain ⟨t, htmem, htid⟩ := hpre
  have hnodup' : ((pre ++ s :: post).map Step.id).Nodup := by
    have := (hperm.map Step.id).nodup_iff.mpr hnodup
    rwa [hsplit] at this
  rw [List.map_append, List.nodup_append] at hnodup'
  intro t' ht' ht'id
  have h1 : d ∈ pre.map Step.id := List.mem_map.mpr ⟨t, htmem, htid⟩
  have h2 : d ∈ (s :: post).map Step.id := List.mem_map.mpr ⟨t', ht', ht'id⟩
  exact hnodup'.2.2 h1 h2

/-- A three-step chain `a ← b ← c`, declared out of order, used to witness
the resolver theorems. -/
def chainSteps : List Step :=
  [{ id := "c", needs := some ["b"] },
   { id := "a" },
   { id := "b", needs := some ["a"] }]

/-- A rank certificate for `chainSteps`. -/
def chainRank (d : String) : Nat :=
  if d = "a" then 0 else if d = "b" then 1 else 2

/-- Witness for C1: the chain satisfies all hypotheses and is resolved
correctly. -/
theorem buildExecutionOrder_correct_witness :
    ((chainSteps.map Step.id).Nodup ∧
     (∀ s ∈ chainSteps, ∀ d ∈ s.needsL, chainRank d < chainRank s.id) ∧
     (∀ s ∈ chainSteps, ∀ d ∈ s.needsL, ∃ t ∈ chainSteps, t.id = d)) ∧
    ((buildExecutionOrder chainSteps).Perm chainSteps ∧
     ∀ pre s post, buildExecutionOrder chainSteps = pre ++ s :: post →
       ∀ d ∈ s.needsL, (∃ t ∈ pre, t.id = d) ∧ ∀ t' ∈ s :: post, t'.id ≠ d) :=
  ⟨⟨by decide, by decide, by decide⟩,
   buildExecutionOrder_correct chainSteps chainRank (by decide) (by decide) (by decide)⟩

/-!
## C9: ordering of independent steps

The spec claims any two steps with no dependency relation in either
direction keep their declaration order.  That is false: a step whose
dependencies are not yet satisfied is skipped over in favour of later
eligible steps, even ones it is entirely independent of.
-/

/-- One `needs` edge in the step graph: the step with id `a` names `b`. -/
def dependsOn (steps : List Step) (a b : String) : Bool :=
  steps.any (fun s => s.id == a && s.needsL.contains b)

/-- Reachability through `needs` edges within `fuel` hops. -/
def reachableWithin (steps : List Step) : Nat → String → String → Bool
  | 0, _, _ => false
  | fuel + 1, a, b =>
    dependsOn steps a b ||
      (steps.map Step.id).any (fun c => dependsOn steps a c && reachableWithin steps fuel c b)

/-- Neither step reachable from the other through `needs` (paths in a graph
on `steps.length` vertices need at most `steps.length` edges). -/
def independentSteps (steps : List Step) (a b : String) : Bool :=
  !reachableWithin steps steps.length a b && !reachableWithin steps steps.length b a

/-- The refuting instance for C9: `x` (needs `z`) is declared before the
independent step `y`, but the resolver emits `y` first. -/
def indepDemoSteps : List Step :=
  [{ id := "x", needs := some ["z"] },
   { id := "y" },
   { id := "z" }]

/-- Counterexample to C9: `x` and `y` have no dependency relation in either
direction and `x` is declared first, yet `buildExecutionOrder` places `y`
before `x` (`x` is skipped while its dependency `z` is unplaced). -/
theorem buildExecutionOrder_independent_counterexample :
    independentSteps indepDemoSteps "x" "y" = true ∧
    indepDemoSteps.map Step.id = ["x", "y", "z"] ∧
    (buildExecutionOrder indepDemoSteps).map Step.id = ["y", "z", "x"] := by
  refine ⟨by decide, by decide, by decide⟩

/-- C9 (amended): among steps with no dependencies at all, declaration
order is preserved — the subsequence of dependency-free steps in the
output equals the subsequence of dependency-free steps as declared.  The
resolver is a pure function, so repeated calls on the same list trivially
agree. -/
theorem buildExecutionOrder_noNeeds_order (steps : List Step) :
    (buildExecutionOrder steps).filter Resolver.noNeeds = steps.filter Resolver.noNeeds ∧
    buildExecutionOrder steps = buildExecutionOrder steps :=
  ⟨Resolver.buildLoop_filter_noNeeds steps.length steps [] (le_refl _), rfl⟩

/-!
## Interpolation engine (`interpolateVariables`)

The source is `text.replace(/\{\{inputs\.(\w+)\}\}/g, ...)`: scan left to
right; at the first position where the literal `{{inputs.` is followed by
one or more word characters and then `}}`, substitute `String(value)` when
the named input is defined, otherwise emit the matched text verbatim;
continue after the match.  `findMatch` is that scan; the driver consumes at
least one character per match so `text.length` is enough fuel.
-/


/-- `\w`: ASCII letters, digits and underscore. -/
def isWordChar (c : Char) : Bool := c.isAlphanum || c == '_'

/-- The literal characters of `{{inputs.`. -/
def triggerChars : List Char := ['{', '{', 'i', 'n', 'p', 'u', 't', 's', '.']

/-- After the trigger, the regex requires a nonempty word-character run
(first argument: the `takeWhile` part) immediately followed by `}}`
(second argument: the `dropWhile` part). -/
def checkName : List Char → List Char → Option (List Char × List Char)
  | n :: ns, '}' :: '}' :: rest3 => some (n :: ns, rest3)
  | _, _ => none

/-- Try to match `{{inputs.(\w+)}}` exactly at the head of `l`, returning
the captured name and the remainder after the match. -/
def matchAt (l : List Char) : Option (List Char × List Char) :=
  if triggerChars.isPrefixOf l then
    checkName ((l.drop 9).takeWhile isWordChar) ((l.drop 9).dropWhile isWordChar)
  else none

/-- First match of the placeholder pattern in `l`: the text before it, the
captured name, and the text after it. -/
def findMatch : List Char → Option (List Char × List Char × List Char)
  | [] => none
  | c :: cs =>
    match matchAt (c :: cs) with
    | some (name, after) => some ([], name, after)
    | none => (findMatch cs).map (fun x => (c :: x.1, x.2.1, x.2.2))

/-- Replacement text chosen by the source callback: `String(value)` when
the input is defined, the matched text itself otherwise. -/
def replacementFor (inputs : InputValues) (name : List Char) : List Char :=
  match lookupVal inputs (String.mk name) with
  | some v => (displayValue v).data
  | none => triggerChars ++ name ++ ['}', '}']

/-- The global-replace driver; each iteration consumes the text up to and
including one match. -/
def interpGo (inputs : InputValues) : Nat → List Char → List Char
  | 0, l => l
  | fuel + 1, l =>
    match findMatch l with
    | none => l
    | some (pre, name, after) =>
      pre ++ replacementFor inputs name ++ interpGo inputs fuel after

/-- `interpolateVariables` from `src/executor/index.ts`. -/
def interpolateVariables (text : String) (inputs : InputValues) : String :=
  String.mk (interpGo inputs text.data.length text.data)

namespace Interp

theorem checkName_some {t d name after} (h : checkName t d = some (name, after)) :
    name = t ∧ t ≠ [] ∧ d = '}' :: '}' :: after := by
  unfold checkName at h
  split at h
  · simp only [Option.some.injEq, Prod.mk.injEq] at h
    obtain ⟨rfl, rfl⟩ := h
    exact ⟨rfl, by simp, rfl⟩
  · exact absurd h (by simp)

theorem matchAt_some {l name after} (h : matchAt l = some (name, after)) :
    triggerChars.isPrefixOf l = true ∧
    name = (l.drop 9).takeWhile isWordChar ∧ name ≠ [] ∧
    (l.drop 9).dropWhile isWordChar = '}' :: '}' :: after := by
  unfold matchAt at h
  by_cases hp : triggerChars.isPrefixOf l
  · rw [if_pos hp] at h
    obtain ⟨h1, h2, h3⟩ := checkName_some h
    exact ⟨hp, h1, h1 ▸ h2, h3⟩
  · rw [if_neg hp] at h
    exact absurd h (by simp)

theorem matchAt_after_lt {l name after} (h : matchAt l = some (name, after)) :
    after.length + 11 ≤ l.length := by
  obtain ⟨hp, hname, hne, hd⟩ := matchAt_some h
  have hlen : 9 ≤ l.length := by
    have := List.IsPrefix.length_le (List.isPrefixOf_iff_prefix.mp hp)
    simpa [triggerChars] using this
  have hsplit : ((l.drop 9).takeWhile isWordChar).length
      + ((l.drop 9).dropWhile isWordChar).length = (l.drop 9).length := by
    rw [← List.length_append, List.takeWhile_append_dropWhile]
  have h9 : (l.drop 9).length = l.length - 9 := List.length_drop 9 l
  have hd' : ((l.drop 9).dropWhile isWordChar).length = after.length + 2 := by
    rw [hd]; simp
  have hn : 1 ≤ ((l.drop 9).takeWhile isWordChar).length := by
    rw [← hname]
    cases name with
    | nil => exact absurd rfl hne
    | cons a as => simp
  omega

theorem findMatch_some :
    ∀ {l pre name after}, findMatch l = some (pre, name, after) →
      after.length + 11 ≤ l.length ∧ pre.length + name.length + 11 + after.length = l.length := by
  intro l
  induction l with
  | nil => intro pre name after h; simp [findMatch] at h
  | cons c cs ih =>
    intro pre name after h
    rw [findMatch] at h
    cases hm : matchAt (c :: cs) with
    | some p =>
      obtain ⟨name', after'⟩ := p
      rw [hm] at h
      simp only [Option.some.injEq, Prod.mk.injEq] at h
      obtain ⟨rfl, rfl, rfl⟩ := h
      have halt := matchAt_after_lt hm
      refine ⟨halt, ?_⟩
      obtain ⟨hp, hname, -, hd⟩ := matchAt_some hm
      have hsplit : (((c :: cs).drop 9).takeWhile isWordChar).length
          + (((c :: cs).drop 9).dropWhile isWordChar).length = ((c :: cs).drop 9).length := by
        rw [← List.length_append, List.takeWhile_append_dropWhile]
      have hlen : 9 ≤ (c :: cs).length := by
        have := List.IsPrefix.length_le (List.isPrefixOf_iff_prefix.mp hp)
        simpa [triggerChars] using this
      have h9 : ((c :: cs).drop 9).length = (c :: cs).length - 9 := List.length_drop 9 _
      have hd' : (((c :: cs).drop 9).dropWhile isWordChar).length = after'.length + 2 := by
        rw [hd]; simp
      have hn : (((c :: cs).drop 9).takeWhile isWordChar).length = name'.length :=
        congrArg List.length hname.symm
      simp only [List.length_nil, List.length_cons] at *
      omega
    | none =>
      rw [hm] at h
      cases hf : findMatch cs with
      | none => rw [hf] at h; simp at h
      | some q =>
        obtain ⟨qpre, qname, qafter⟩ := q
        rw [hf] at h
        simp only [Option.map_some', Option.some.injEq, Prod.mk.injEq] at h
        obtain ⟨rfl, rfl, rfl⟩ := h
        obtain ⟨ha, hb⟩ := ih hf
        constructor
        · simp only [List.length_cons]; omega
        · simp only [List.length_cons]; omega

theorem findMatch_after_lt {l pre name after}
    (h : findMatch l = some (pre, name, after)) : after.length < l.length := by
  have := (findMatch_some h).1
  omega

theorem interpGo_nil {inputs : InputValues} : ∀ f, interpGo inputs f [] = [] := by
  intro f
  cases f with
  | zero => rfl
  | succ f => rw [interpGo]; simp [findMatch]

/-- The driver's result does not depend on the fuel, once the fuel covers
the text length. -/
theorem interpGo_fuel {inputs : InputValues} :
    ∀ (k : Nat) (l : List Char), l.length ≤ k →
      ∀ f₁ f₂, l.length ≤ f₁ → l.length ≤ f₂ →
        interpGo inputs f₁ l = interpGo inputs f₂ l := by
  intro k
  induction k with
  | zero =>
    intro l hl f₁ f₂ _ _
    have : l = [] := List.eq_nil_of_length_eq_zero (Nat.le_zero.mp hl)
    subst this
    rw [interpGo_nil, interpGo_nil]
  | succ k ih =>
    intro l hl f₁ f₂ h1 h2
    cases l with
    | nil => rw [interpGo_nil, interpGo_nil]
    | cons c cs =>
      cases f₁ with
      | zero => simp at h1
      | succ f₁ =>
        cases f₂ with
        | zero => simp at h2
        | succ f₂ =>
          rw [interpGo, interpGo]
          cases hm : findMatch (c :: cs) with
          | none => rfl
          | some t =>
            obtain ⟨pre, name, after⟩ := t
            have hlt := findMatch_after_lt hm
            simp only [List.length_cons] at hl h1 h2 hlt
            have heq := ih after (by omega) f₁ f₂ (by omega) (by omega)
            simp only [heq]

theorem matchAt_head {c : Char} {cs : List Char} (hc : c ≠ '{') :
    matchAt (c :: cs) = none := by
  unfold matchAt
  rw [if_neg]
  intro h
  rw [show triggerChars = '{' :: ['{', 'i', 'n', 'p', 'u', 't', 's', '.'] from rfl] at h
  simp [List.isPrefixOf] at h
  exact hc h.1.symm

theorem findMatch_hop :
    ∀ (pre : List Char), (∀ c ∈ pre, c ≠ '{') → ∀ (l : List Char),
      findMatch (pre ++ l) = (findMatch l).map (fun x => (pre ++ x.1, x.2.1, x.2.2)) := by
  intro pre
  induction pre with
  | nil =>
    intro _ l
    simp only [List.nil_append]
    cases findMatch l with
    | none => simp
    | some x => obtain ⟨a, b, c⟩ := x; simp
  | cons c pre' ih =>
    intro hpre l
    have hc : c ≠ '{' := hpre c (List.mem_cons_self _ _)
    have hm : matchAt (c :: (pre' ++ l)) = none := matchAt_head hc
    rw [List.cons_append, findMatch, hm, ih (fun d hd => hpre d (List.mem_cons_of_mem _ hd)) l]
    cases findMatch l with
    | none => simp
    | some x => obtain ⟨a, b, d⟩ := x; simp

theorem takeWhile_name :
    ∀ (name zs : List Char), (∀ c ∈ name, isWordChar c = true) →
      (name ++ '}' :: zs).takeWhile isWordChar = name ∧
      (name ++ '}' :: zs).dropWhile isWordChar = '}' :: zs := by
  intro name
  induction name with
  | nil =>
    intro zs _
    have h : isWordChar '}' = false := rfl
    simp [List.takeWhile_cons, List.dropWhile_cons, h]
  | cons a as ih =>
    intro zs hall
    have ha : isWordChar a = true := hall a (List.mem_cons_self _ _)
    have := ih zs (fun c hc => hall c (List.mem_cons_of_mem _ hc))
    simp [List.takeWhile_cons, List.dropWhile_cons, ha, this.1, this.2]

theorem matchAt_trigger {name post : List Char}
    (hne : name ≠ []) (hword : ∀ c ∈ name, isWordChar c = true) :
    matchAt (triggerChars ++ (name ++ '}' :: '}' :: post)) = some (name, post) := by
  unfold matchAt
  rw [if_pos (List.isPrefixOf_iff_prefix.mpr (List.prefix_append _ _))]
  have hdrop : (triggerChars ++ (name ++ '}' :: '}' :: post)).drop 9
      = name ++ '}' :: '}' :: post := by
    rw [show (9 : Nat) = triggerChars.length from rfl, List.drop_left]
  rw [hdrop]
  have := takeWhile_name name ('}' :: post) hword
  rw [show name ++ '}' :: '}' :: post = name ++ '}' :: ('}' :: post) from rfl, this.1, this.2]
  cases name with
  | nil => exact absurd rfl hne
  | cons a as => rfl

theorem findMatch_full {pre name post : List Char}
    (hpre : ∀ c ∈ pre, c ≠ '{') (hne : name ≠ []) (hword : ∀ c ∈ name, isWordChar c = true) :
    findMatch (pre ++ (triggerChars ++ (name ++ '}' :: '}' :: post)))
      = some (pre, name, post) := by
  have hstep : findMatch (triggerChars ++ (name ++ '}' :: '}' :: post))
      = some ([], name, post) := by
    rw [show triggerChars ++ (name ++ '}' :: '}' :: post)
        = '{' :: (['{', 'i', 'n', 'p', 'u', 't', 's', '.'] ++ (name ++ '}' :: '}' :: post)) from rfl]
    rw [findMatch]
    rw [show '{' :: (['{', 'i', 'n', 'p', 'u', 't', 's', '.'] ++ (name ++ '}' :: '}' :: post))
        = triggerChars ++ (name ++ '}' :: '}' :: post) from rfl]
    rw [matchAt_trigger hne hword]
  rw [findMatch_hop pre hpre, hstep]
  simp

theorem data_append (a b : String) : (a ++ b).data = a.data ++ b.data := rfl

theorem trigger_data : ("\x7b\x7binputs." : String).data = triggerChars := by decide

theorem close_data : ("\x7d\x7d" : String).data = ['}', '}'] := by decide

/-- Texts containing no placeholder match are returned unchanged. -/
theorem interp_no_match {text : String} {inputs : InputValues}
    (h : findMatch text.data = none) : interpolateVariables text inputs = text := by
  unfold interpolateVariables
  have hgo : interpGo inputs text.data.length text.data = text.data := by
    cases hl : text.data.length with
    | zero => rfl
    | succ f => rw [interpGo, h]
  rw [hgo]

/-- The head placeholder of a well-split text is substituted by the
source's callback result and scanning continues after it. -/
theorem interp_step (inputs : InputValues) (pre name post : String)
    (hpre : ∀ c ∈ pre.data, c ≠ '{')
    (hne : name.data ≠ []) (hword : ∀ c ∈ name.data, isWordChar c = true) :
    interpolateVariables (pre ++ "\x7b\x7binputs." ++ name ++ "\x7d\x7d" ++ post) inputs
      = pre ++ String.mk (replacementFor inputs name.data) ++ interpolateVariables post inputs := by
  have hdata : (pre ++ "\x7b\x7binputs." ++ name ++ "\x7d\x7d" ++ post).data
      = pre.data ++ (triggerChars ++ (name.data ++ '}' :: '}' :: post.data)) := by
    simp only [data_append, trigger_data, close_data, List.append_assoc, List.cons_append,
      List.nil_append, triggerChars]
  have hfm : findMatch (pre ++ "\x7b\x7binputs." ++ name ++ "\x7d\x7d" ++ post).data
      = some (pre.data, name.data, post.data) := by
    rw [hdata]
    exact findMatch_full hpre hne hword
  have hlen := (findMatch_some hfm).2
  unfold interpolateVariables
  cases hN : (pre ++ "\x7b\x7binputs." ++ name ++ "\x7d\x7d" ++ post).data.length with
  | zero => omega
  | succ m =>
    rw [interpGo, hfm]
    have hfuel : interpGo inputs m post.data
        = interpGo inputs post.data.length post.data :=
      Interp.interpGo_fuel m post.data (by omega) m post.data.length (by omega) (le_refl _)
    show String.mk (pre.data ++ replacementFor inputs name.data ++ interpGo inputs m post.data) = _
    rw [hfuel]
    rfl

end Interp

/-!
## Input validation (`validateInputs` from `src/validator/index.ts`)

Per declared input, in source order: a required input with no supplied
value and no default is `MISSING_INPUT` (and checking continues with the
next input); an undefined value passes; a `typeof` mismatch is
`TYPE_MISMATCH` (continue); strings are checked against `pattern`
(JS-falsy empty pattern skipped), `enum`, `minLength`/`maxLength` (JS-falsy
zero bounds skipped); numbers against `min`/`max` (checked with
`!== undefined`, so zero bounds apply).
-/

/-- `ValidationError` as produced by the validator (`path`, `message`,
`code`). -/
structure ValidationError where
  path : String
  message : String
  code : String
deriving Repr, DecidableEq

/-- The per-entry body of the `validateInputs` loop. -/
def errorsForEntry (regexTest : String → String → Bool) (inputs : InputValues)
    (entry : String × InputDefinition) : List ValidationError :=
  let name := entry.1
  let definition := entry.2
  match lookupVal inputs name with
  | none =>
    if definition.required.getD false && definition.default.isNone then
      [{ path := "inputs." ++ name,
         message := "Required input '" ++ name ++ "' is missing",
         code := "MISSING_INPUT" }]
    else []
  | some value =>
    if value.typeName ≠ definition.type then
      [{ path := "inputs." ++ name,
         message := "Expected " ++ definition.type ++ ", got " ++ value.typeName,
         code := "TYPE_MISMATCH" }]
    else
      (match value with
       | .vstr s =>
         (match definition.pattern with
          | some p =>
            if p ≠ "" ∧ ¬ regexTest p s then
              [{ path := "inputs." ++ name,
                 message := "Value '" ++ s ++ "' does not match pattern '" ++ p ++ "'",
                 code := "PATTERN_MISMATCH" }]
            else []
          | none => []) ++
         (match definition.enum with
          | some es =>
            if ¬ es.contains s then
              [{ path := "inputs." ++ name,
                 message := "Value '" ++ s ++ "' must be one of: "
                   ++ String.intercalate ", " es,
                 code := "ENUM_MISMATCH" }]
            else []
          | none => []) ++
         (match definition.minLength with
          | some m =>
            if m ≠ 0 ∧ (s.length : Int) < m then
              [{ path := "inputs." ++ name,
                 message := "Value must be at least " ++ toString m ++ " characters",
                 code := "MIN_LENGTH" }]
            else []
          | none => []) ++
         (match definition.maxLength with
          | some m =>
            if m ≠ 0 ∧ (s.length : Int) > m then
              [{ path := "inputs." ++ name,
                 message := "Value must be at most " ++ toString m ++ " characters",
                 code := "MAX_LENGTH" }]
            else []
          | none => [])
       | .vnum v =>
         (match definition.min with
          | some m =>
            if v < m then
              [{ path := "inputs." ++ name,
                 message := "Value must be at least " ++ toString m,
                 code := "MIN_VALUE" }]
            else []
          | none => []) ++
         (match definition.max with
          | some m =>
            if v > m then
              [{ path := "inputs." ++ name,
                 message := "Value must be at most " ++ toString m,
                 code := "MAX_VALUE" }]
            else []
          | none => [])
       | _ => [])

/-- `validateInputs(ability, inputs)` — the errors of every declared
input, in declaration order. -/
def validateInputs (regexTest : String → String → Bool) (ability : Ability)
    (inputs : InputValues) : List ValidationError :=
  (ability.inputs.getD []).flatMap (errorsForEntry regexTest inputs)

/-!
## Step executor (`runScript`, `executeScriptStep`, `executeAbility`)
-/

/-- What `runScript` hands to `spawn`: the interpolated command, the
working directory (`step.cwd || ctx.cwd`) and the merged environment
overlay (`{...ctx.env, ...step.env}`). -/
structure ScriptRequest where
  command : String
  cwd : String
  env : List (String × String)
deriving Repr

/-- Outcome of a spawn attempt, decided by the environment: `ok` is the
`close` event (exit code may be null), `err` is the `error` event with the
stdout accumulated so far and the error message. -/
inductive SpawnOutcome where
  | ok (stdout stderr : String) (exitCode : Option Int)
  | err (stdout : String) (message : String)
deriving Repr

/-- What `runScript` resolves with. -/
structure ScriptOut where
  stdout : String
  stderr : String
  exitCode : Int
deriving Repr, DecidableEq

/-- The host context handed to the executor, with the external effects
(clock, subprocess spawning, regex engine) as oracles. -/
structure ExecutorContext where
  cwd : String
  env : List (String × String)
  now : Nat := 0
  rand : String := ""
  run : ScriptRequest → SpawnOutcome
  regexTest : String → String → Bool := fun _ _ => true

/-- `{...base, ...overlay}` on string-keyed records: overlay entries win. -/
def mergeEnv (base overlay : List (String × String)) : List (String × String) :=
  base.filter (fun p => (List.lookup p.1 overlay).isNone) ++ overlay

/-- `runScript` from `src/executor/index.ts`: resolves (never rejects) with
accumulated output; the `close` path defaults a null exit code to 1, the
`error` path keeps accumulated stdout, replaces stderr with the error
message, and reports exit code 1. -/
def runScript (ctx : ExecutorContext) (req : ScriptRequest) : ScriptOut :=
  match ctx.run req with
  | .ok out err code => { stdout := out, stderr := err, exitCode := code.getD 1 }
  | .err out msg => { stdout := out, stderr := msg, exitCode := 1 }

/-- `generateExecutionId`: time- and randomness-derived opaque id. -/
def generateExecutionId (ctx : ExecutorContext) : String :=
  "exec_" ++ toString ctx.now ++ "_" ++ ctx.rand

/-- `executeScriptStep` from `src/executor/index.ts`: interpolate the
command against the execution's inputs, run it, then mark `failed` exactly
when a declared `validation.exit_code` differs from the actual exit code;
output is stdout, or stderr when stdout is empty (`stdout || stderr`).
`runScript` always resolves, so the source's catch-branch is dead code. -/
def executeScriptStep (step : Step) (execution : AbilityExecution)
    (ctx : ExecutorContext) : StepResult :=
  let command := interpolateVariables step.run execution.inputs
  let result := runScript ctx
    { command := command
      cwd := step.cwd.getD ctx.cwd
      env := mergeEnv ctx.env step.env }
  let failed : Bool :=
    match step.validation with
    | some v =>
      match v.exit_code with
      | some expected => result.exitCode != expected
      | none => false
    | none => false
  { stepId := step.id
    status := if failed then "failed" else "completed"
    output := some (if result.stdout ≠ "" then result.stdout else result.stderr)
    error :=
      if failed then
        match step.validation.bind StepValidation.exit_code with
        | some expected =>
          some ("Exit code " ++ toString result.exitCode ++ ", expected " ++ toString expected)
        | none => none
      else none
    startedAt := ctx.now
    completedAt := ctx.now
    duration := 0 }

/-- The default-application pass of `executeAbility`: for each declared
input in order, a still-undefined value with a declared default is filled
in. -/
def applyDefaults (inputs : InputValues) (defs : List (String × InputDefinition)) : InputValues :=
  defs.foldl
    (fun acc entry =>
      match entry.2.default with
      | some v => if (lookupVal acc entry.1).isNone then acc ++ [(entry.1, v)] else acc
      | none => acc)
    inputs

/-- The `for (let i = 0; ...)` loop of `executeAbility`: run each ordered
step, record its result, drop it from `pendingSteps`; a `failed` result
aborts the whole execution immediately (there is no `on_failure` handling
in this executor), otherwise the loop keeps going and the execution ends
`completed`. -/
def runLoop (ctx : ExecutorContext) : List Step → Int → AbilityExecution → AbilityExecution
  | [], _, ex =>
    { ex with status := "completed", currentStep := none, completedAt := some ctx.now }
  | step :: rest, i, ex =>
    let ex1 := { ex with currentStep := some step, currentStepIndex := i }
    let result := executeScriptStep step ex1 ctx
    let ex2 := { ex1 with
      completedSteps := ex1.completedSteps ++ [result]
      pendingSteps := ex1.pendingSteps.filter (fun s => s.id ≠ step.id) }
    if result.status = "failed" then
      { ex2 with status := "failed", error := result.error, completedAt := some ctx.now }
    else
      runLoop ctx rest (i + 1) ex2

/-- `executeAbility` from `src/executor/index.ts`: validate inputs (any
error returns a `failed` execution immediately, zero steps run), apply
defaults, resolve the order, then run the steps sequentially. -/
def executeAbility (ability : Ability) (inputs : InputValues)
    (ctx : ExecutorContext) : AbilityExecution :=
  let inputErrors := validateInputs ctx.regexTest ability inputs
  if inputErrors.isEmpty then
    let resolvedInputs := applyDefaults inputs (ability.inputs.getD [])
    let orderedSteps := buildExecutionOrder ability.steps
    runLoop ctx orderedSteps 0
      { id := generateExecutionId ctx
        ability := ability
        inputs := resolvedInputs
        status := "running"
        currentStep := none
        currentStepIndex := -1
        completedSteps := []
        pendingSteps := orderedSteps
        startedAt := ctx.now }
  else
    { id := generateExecutionId ctx
      ability := ability
      inputs := inputs
      status := "failed"
      currentStep := none
      currentStepIndex := -1
      completedSteps := []
      pendingSteps := ability.steps
      startedAt := ctx.now
      completedAt := some ctx.now
      error := some ("Input validation failed: "
        ++ String.intercalate ", " (inputErrors.map ValidationError.message)) }

/-!
## Execution lifecycle manager (`src/executor/execution-manager.ts`)
-/

/-- The manager's single piece of state. -/
structure ManagerState where
  activeExecution : Option AbilityExecution := none

/-- What `cancel()` produces: the boolean result, the (mutated) execution
the caller observes, and the new manager state. -/
structure CancelResult where
  result : Bool
  cancelledExecution : Option AbilityExecution
  state : ManagerState

/-- `ExecutionManager.cancel`: `false` with no state change when nothing
is tracked or the tracked execution is not running; otherwise the
execution's status is set to `"failed"` with error `"Cancelled by user"`
and a terminal timestamp, the slot is cleared, and the result is true. -/
def managerCancel (now : Nat) (st : ManagerState) : CancelResult :=
  match st.activeExecution with
  | none => { result := false, cancelledExecution := none, state := st }
  | some ex =>
    if ex.status = "running" then
      { result := true
        cancelledExecution := some { ex with
          status := "failed"
          error := some "Cancelled by user"
          completedAt := some now }
        state := { activeExecution := none } }
    else
      { result := false, cancelledExecution := none, state := st }

/-- `ExecutionManager.execute`: throws "Already executing" while a running
execution is tracked; otherwise runs the ability to completion, stores the
result, and clears the slot whenever the result is not running. -/
def managerExecute (ability : Ability) (inputs : InputValues) (ctx : ExecutorContext)
    (st : ManagerState) : Except String (AbilityExecution × ManagerState) :=
  match st.activeExecution with
  | some active =>
    if active.status = "running" then
      .error ("Already executing ability: " ++ active.ability.name)
    else
      let execution := executeAbility ability inputs ctx
      .ok (execution,
        { activeExecution := if execution.status ≠ "running" then none else some execution })
  | none =>
    let execution := executeAbility ability inputs ctx
    .ok (execution,
      { activeExecution := if execution.status ≠ "running" then none else some execution })

/-- `ExecutionManager.getActive`. -/
def managerGetActive (st : ManagerState) : Option AbilityExecution :=
  st.activeExecution

/-!
## Enforcement gate (`handleToolExecuteBefore` from the plugin entry)
-/

/-- `ALLOWED_TOOLS_BY_STEP_TYPE` from the plugin. -/
def ALLOWED_TOOLS_BY_STEP_TYPE : List (String × List String) :=
  [("script", []),
   ("agent", ["task", "background_task", "call_omo_agent"]),
   ("skill", ["skill", "slashcommand"]),
   ("approval", ["ability.status", "ability.cancel"]),
   ("workflow", ["ability.run", "ability.status"])]

/-- `ALWAYS_ALLOWED_TOOLS` from the plugin. -/
def ALWAYS_ALLOWED_TOOLS : List String :=
  ["ability.list", "ability.status", "ability.cancel", "todoread", "read", "glob", "grep",
   "lsp_hover", "lsp_diagnostics", "lsp_document_symbols"]

/-- `getStepTypeBlockMessage` from the plugin. -/
def getStepTypeBlockMessage (step : Step) : String :=
  if step.type = "script" then "Script steps run deterministically - wait for completion."
  else if step.type = "agent" then "Only agent invocation tools (task, background_task) allowed."
  else if step.type = "approval" then "Waiting for user approval - only status/cancel tools allowed."
  else if step.type = "skill" then "Only skill-loading tools allowed."
  else if step.type = "workflow" then "Only ability execution tools allowed."
  else "Wait for step completion."

/-- The error message thrown by a strict-mode denial. -/
def strictBlockMessage (tool : String) (step : Step) : String :=
  "[abilities] Tool '" ++ tool ++ "' blocked during " ++ step.type ++ " step '"
    ++ step.id ++ "'. " ++ getStepTypeBlockMessage step

/-- `handleToolExecuteBefore`: `none` is a silent return (tool allowed),
`some msg` is the thrown enforcement error.  Order of checks as in source:
no active execution → allow; no current step → allow; `loose` → allow;
always-allowed list → allow; then per-mode check against the step-type
table (missing table entries default to the empty list). -/
def handleToolExecuteBefore (active : Option AbilityExecution)
    (configEnforcement : Option String) (tool : String) : Option String :=
  match active with
  | none => none
  | some execution =>
    match execution.currentStep with
    | none => none
    | some currentStep =>
      let enforcement := configEnforcement.getD "strict"
      if enforcement = "loose" then none
      else if ALWAYS_ALLOWED_TOOLS.contains tool then none
      else
        let allowedTools := (List.lookup currentStep.type ALLOWED_TOOLS_BY_STEP_TYPE).getD []
        if enforcement = "strict" then
          if ¬ allowedTools.contains tool then
            some (strictBlockMessage tool currentStep)
          else none
        else if enforcement = "normal" then
          let destructiveTools := ["write", "edit", "bash", "task"]
          if destructiveTools.contains tool ∧ ¬ allowedTools.contains tool then
            some ("[abilities] Destructive tool '" ++ tool ++ "' blocked during "
              ++ currentStep.type ++ " step '" ++ currentStep.id ++ "'.")
          else none
        else none

/-!
## Claim C2: strict enforcement during script steps
-/

/-- C2: while an execution is active whose current step is a script step,
under strict enforcement (explicit or defaulted) a tool invocation throws
an error naming the blocked tool and the current step id exactly when the
tool is not on the fixed always-allowed list; and always-allowed tools
never raise, regardless of execution state and enforcement mode. -/
theorem handleToolExecuteBefore_strict_script
    (exec : AbilityExecution) (step : Step) (cfg : Option String) (tool : String)
    (hstep : exec.currentStep = some step) (htype : step.type = "script")
    (hcfg : cfg.getD "strict" = "strict") :
    (handleToolExecuteBefore (some exec) cfg tool
      = if ALWAYS_ALLOWED_TOOLS.contains tool then none
        else some (strictBlockMessage tool step)) ∧
    ∀ (active : Option AbilityExecution) (cfg' : Option String) (tool' : String),
      ALWAYS_ALLOWED_TOOLS.contains tool' = true →
      handleToolExecuteBefore active cfg' tool' = none := by
  constructor
  · simp only [handleToolExecuteBefore, hstep, hcfg]
    by_cases h : tool ∈ ALWAYS_ALLOWED_TOOLS
    · simp [h]
    · simp [h, htype, ALLOWED_TOOLS_BY_STEP_TYPE, List.lookup]
  · intro active cfg' tool' h
    have h' : tool' ∈ ALWAYS_ALLOWED_TOOLS := List.mem_of_elem_eq_true h
    cases active with
    | none => rfl
    | some e =>
      simp only [handleToolExecuteBefore]
      cases hcs : e.currentStep with
      | none => rfl
      | some s =>
        by_cases hl : cfg'.getD "strict" = "loose" <;> simp [hl, h']

/-- A concrete active execution sitting on a script step. -/
def gateDemoStep : Step := { id := "build", run := "npm run build" }

/-- Execution state used to witness the enforcement claims. -/
def gateDemoExec : AbilityExecution :=
  { id := "exec_1_x"
    ability := { name := "deploy", steps := [gateDemoStep] }
    inputs := []
    status := "running"
    currentStep := some gateDemoStep }

/-- Witness for C2: with default (strict) enforcement, `bash` is blocked
with a message naming the tool and step, while always-allowed tools pass. -/
theorem handleToolExecuteBefore_strict_script_witness :
    (gateDemoExec.currentStep = some gateDemoStep ∧ gateDemoStep.type = "script" ∧
      (Option.getD none "strict") = "strict") ∧
    ((handleToolExecuteBefore (some gateDemoExec) none "bash"
        = if ALWAYS_ALLOWED_TOOLS.contains "bash" then none
          else some (strictBlockMessage "bash" gateDemoStep)) ∧
     ∀ (active : Option AbilityExecution) (cfg' : Option String) (tool' : String),
       ALWAYS_ALLOWED_TOOLS.contains tool' = true →
       handleToolExecuteBefore active cfg' tool' = none) :=
  ⟨⟨rfl, rfl, rfl⟩,
   handleToolExecuteBefore_strict_script gateDemoExec gateDemoStep none "bash" rfl rfl rfl⟩

/-!
## Claim C6: `ExecutionManager.cancel`
-/

/-- A running execution as the manager would observe mid-flight. -/
def runningDemoExec : AbilityExecution :=
  { id := "exec_2_y"
    ability := { name := "deploy", steps := [gateDemoStep] }
    inputs := []
    status := "running" }

/-- Counterexample to C6: cancelling an active running execution returns
true and clears the slot, but the execution is marked `"failed"` (with
error `"Cancelled by user"`), never `"cancelled"` — the minimal
`ExecutionStatus` type has no cancelled state at all. -/
theorem managerCancel_counterexample :
    (managerCancel 5 ⟨some runningDemoExec⟩).result = true ∧
    ((managerCancel 5 ⟨some runningDemoExec⟩).cancelledExecution.map AbilityExecution.status
      = some "failed") ∧
    ((managerCancel 5 ⟨some runningDemoExec⟩).cancelledExecution.map AbilityExecution.status
      ≠ some "cancelled") := by
  refine ⟨rfl, rfl, ?_⟩
  intro h
  rw [show (managerCancel 5 ⟨some runningDemoExec⟩).cancelledExecution.map AbilityExecution.status
      = some "failed" from rfl] at h
  simp at h

/-- C6 (amended): `cancel` returns true exactly when a running execution
is tracked; in that case the execution is marked `"failed"` with error
`"Cancelled by user"` and a terminal timestamp and the active slot is
cleared; when it returns false nothing changed (in particular when no
execution is tracked). -/
theorem managerCancel_spec (now : Nat) (st : ManagerState) :
    ((managerCancel now st).result = true ↔
      ∃ ex, st.activeExecution = some ex ∧ ex.status = "running") ∧
    (∀ ex, st.activeExecution = some ex → ex.status = "running" →
      (managerCancel now st).state.activeExecution = none ∧
      (managerCancel now st).cancelledExecution.map AbilityExecution.status = some "failed" ∧
      (managerCancel now st).cancelledExecution.map AbilityExecution.error
        = some (some "Cancelled by user") ∧
      (managerCancel now st).cancelledExecution.map AbilityExecution.completedAt
        = some (some now)) ∧
    ((managerCancel now st).result = false → (managerCancel now st).state = st) := by
  refine ⟨?_, ?_, ?_⟩
  · cases hs : st.activeExecution with
    | none => simp [managerCancel, hs]
    | some ex =>
      by_cases hr : ex.status = "running"
      · simp [managerCancel, hs, hr]
      · simp [managerCancel, hs, hr]
  · intro ex hs hr
    refine ⟨by simp [managerCancel, hs, hr], by simp [managerCancel, hs, hr],
      by simp [managerCancel, hs, hr], by simp [managerCancel, hs, hr]⟩
  · intro h
    cases hs : st.activeExecution with
    | none => simp [managerCancel, hs]
    | some ex =>
      by_cases hr : ex.status = "running"
      · rw [show (managerCancel now st).result
            = true from by simp [managerCancel, hs, hr]] at h
        exact absurd h (by simp)
      · simp [managerCancel, hs, hr]

/-- Witness for C6 (amended): the running demo execution is cancelled as
described. -/
theorem managerCancel_spec_witness :
    ((⟨some runningDemoExec⟩ : ManagerState).activeExecution = some runningDemoExec ∧
      runningDemoExec.status = "running") ∧
    ((managerCancel 7 ⟨some runningDemoExec⟩).state.activeExecution = none ∧
     (managerCancel 7 ⟨some runningDemoExec⟩).cancelledExecution.map AbilityExecution.status
       = some "failed" ∧
     (managerCancel 7 ⟨some runningDemoExec⟩).cancelledExecution.map AbilityExecution.error
       = some (some "Cancelled by user") ∧
     (managerCancel 7 ⟨some runningDemoExec⟩).cancelledExecution.map AbilityExecution.completedAt
       = some (some 7)) :=
  ⟨⟨rfl, rfl⟩,
   (managerCancel_spec 7 ⟨some runningDemoExec⟩).2.1 runningDemoExec rfl rfl⟩

/-!
## Claims C3 and C10: the execution loop
-/

/-- `executeScriptStep` reads nothing from the execution but its resolved
inputs; `stepResultOf` is that function of the inputs alone. -/
def stepResultOf (ctx : ExecutorContext) (ri : InputValues) (step : Step) : StepResult :=
  executeScriptStep step
    { id := "", ability := { name := "", steps := [] }, inputs := ri, status := "running" } ctx

theorem executeScriptStep_eq_stepResultOf (step : Step) (ex : AbilityExecution)
    (ctx : ExecutorContext) : executeScriptStep step ex ctx = stepResultOf ctx ex.inputs step :=
  rfl

namespace Loop

theorem runLoop_terminal (ctx : ExecutorContext) :
    ∀ (ss : List Step) (i : Int) (ex : AbilityExecution),
      ((runLoop ctx ss i ex).status = "completed" ∨ (runLoop ctx ss i ex).status = "failed") ∧
      (runLoop ctx ss i ex).completedAt = some ctx.now := by
  intro ss
  induction ss with
  | nil => intro i ex; exact ⟨Or.inl rfl, rfl⟩
  | cons step rest ih =>
    intro i ex
    simp only [runLoop]
    by_cases hf : (executeScriptStep step { ex with currentStep := some step, currentStepIndex := i } ctx).status = "failed"
    · rw [if_pos hf]
      exact ⟨Or.inr rfl, rfl⟩
    · rw [if_neg hf]
      exact ih (i + 1) _

/-- Running a list that begins with non-failing steps and then a failing
one stops exactly at the failing step. -/
theorem runLoop_first_fail (ctx : ExecutorContext) (ri : InputValues) :
    ∀ (pre : List Step) (failStep : Step) (post : List Step) (i : Int) (ex : AbilityExecution),
      ex.inputs = ri →
      (∀ s ∈ pre, (stepResultOf ctx ri s).status ≠ "failed") →
      (stepResultOf ctx ri failStep).status = "failed" →
      (runLoop ctx (pre ++ failStep :: post) i ex).status = "failed" ∧
      (runLoop ctx (pre ++ failStep :: post) i ex).error = (stepResultOf ctx ri failStep).error ∧
      (runLoop ctx (pre ++ failStep :: post) i ex).completedSteps
        = ex.completedSteps ++ (pre ++ [failStep]).map (stepResultOf ctx ri) := by
  intro pre
  induction pre with
  | nil =>
    intro failStep post i ex hinputs hpre hfail
    subst hinputs
    rw [List.nil_append]
    simp only [runLoop, executeScriptStep_eq_stepResultOf]
    rw [show ({ ex with currentStep := some failStep, currentStepIndex := i } : AbilityExecution).inputs = ex.inputs from rfl]
    rw [if_pos hfail]
    exact ⟨rfl, rfl, by simp⟩
  | cons s pre' ih =>
    intro failStep post i ex hinputs hpre hfail
    subst hinputs
    rw [List.cons_append]
    simp only [runLoop, executeScriptStep_eq_stepResultOf]
    rw [show ({ ex with currentStep := some s, currentStepIndex := i } : AbilityExecution).inputs = ex.inputs from rfl]
    have hs : (stepResultOf ctx ex.inputs s).status ≠ "failed" := hpre s (List.mem_cons_self _ _)
    rw [if_neg hs]
    have := ih failStep post (i + 1)
      ({ ex with currentStep := some s, currentStepIndex := i, completedSteps := ex.completedSteps ++ [stepResultOf ctx ex.inputs s], pendingSteps := ex.pendingSteps.filter (fun t => t.id ≠ s.id) })
      rfl (fun t ht => hpre t (List.mem_cons_of_mem _ ht)) hfail
    refine ⟨this.1, this.2.1, ?_⟩
    rw [this.2.2]
    simp

end Loop

/-- C10: every execution returned by `executeAbility` carries a terminal
status — `completed` or `failed`, never `running` — with `completedAt`
set; and after a successful `ExecutionManager.execute`, the active slot is
cleared, so `getActive()` is null. -/
theorem executeAbility_terminal (ability : Ability) (inputs : InputValues)
    (ctx : ExecutorContext) :
    ((executeAbility ability inputs ctx).status = "completed" ∨
      (executeAbility ability inputs ctx).status = "failed") ∧
    (executeAbility ability inputs ctx).completedAt.isSome = true ∧
    ∀ st : ManagerState,
      (match managerExecute ability inputs ctx st with
       | .ok p => managerGetActive p.2 = none
       | .error _ => True) := by
  have hterm : ((executeAbility ability inputs ctx).status = "completed" ∨
      (executeAbility ability inputs ctx).status = "failed") ∧
      (executeAbility ability inputs ctx).completedAt.isSome = true := by
    unfold executeAbility
    by_cases hv : (validateInputs ctx.regexTest ability inputs).isEmpty
    · simp only [hv, if_pos]
      exact ⟨(Loop.runLoop_terminal ctx _ 0 _).1, by rw [(Loop.runLoop_terminal ctx _ 0 _).2]; rfl⟩
    · simp only [hv, if_neg]
      exact ⟨Or.inr rfl, rfl⟩
  refine ⟨hterm.1, hterm.2, ?_⟩
  intro st
  have hne : (executeAbility ability inputs ctx).status ≠ "running" := by
    rcases hterm.1 with h | h <;> rw [h] <;> simp
  unfold managerExecute
  cases hs : st.activeExecution with
  | none => simp [managerGetActive, hne]
  | some active =>
    by_cases hr : active.status = "running"
    · simp [hr]
    · simp [hr, managerGetActive, hne]

/-- C3: under the (only) stop policy, a failing step aborts the execution
immediately: overall status `failed`, the execution's error taken from the
failing step's result, `completedSteps` holding exactly the results of the
steps placed up to and including the failing one, and no later step in the
resolved order ever running. -/
theorem executeAbility_stop_on_failure (ability : Ability) (inputs : InputValues)
    (ctx : ExecutorContext) (pre : List Step) (failStep : Step) (post : List Step)
    (hval : validateInputs ctx.regexTest ability inputs = [])
    (hsplit : buildExecutionOrder ability.steps = pre ++ failStep :: post)
    (_hpol : failStep.on_failure.getD "stop" = "stop")
    (hpre : ∀ s ∈ pre,
      (stepResultOf ctx (applyDefaults inputs (ability.inputs.getD [])) s).status ≠ "failed")
    (hfail : (stepResultOf ctx (applyDefaults inputs (ability.inputs.getD [])) failStep).status
      = "failed") :
    (executeAbility ability inputs ctx).status = "failed" ∧
    (executeAbility ability inputs ctx).error
      = (stepResultOf ctx (applyDefaults inputs (ability.inputs.getD [])) failStep).error ∧
    (executeAbility ability inputs ctx).completedSteps
      = (pre ++ [failStep]).map (stepResultOf ctx (applyDefaults inputs (ability.inputs.getD []))) := by
  have hexec : executeAbility ability inputs ctx
      = runLoop ctx (buildExecutionOrder ability.steps) 0
        { id := generateExecutionId ctx, ability := ability, inputs := applyDefaults inputs (ability.inputs.getD []), status := "running", currentStep := none, currentStepIndex := -1, completedSteps := [], pendingSteps := buildExecutionOrder ability.steps, startedAt := ctx.now } := by
    unfold executeAbility
    rw [hval]
    exact rfl
  rw [hexec, hsplit]
  have := Loop.runLoop_first_fail ctx (applyDefaults inputs (ability.inputs.getD []))
    pre failStep post 0
    { id := generateExecutionId ctx, ability := ability, inputs := applyDefaults inputs (ability.inputs.getD []), status := "running", currentStep := none, currentStepIndex := -1, completedSteps := [], pendingSteps := pre ++ failStep :: post, startedAt := ctx.now }
    rfl hpre hfail
  exact ⟨this.1, this.2.1, by rw [this.2.2]; simp⟩

/-- Scenario A's steps: `a` exits 1 against `validation.exit_code: 0`,
`b needs a`, `c needs b`. -/
def stepA : Step := { id := "a", run := "exit 1", validation := some { exit_code := some 0 } }

/-- Scenario A, step b. -/
def stepB : Step := { id := "b", run := "echo b", needs := some ["a"] }

/-- Scenario A, step c. -/
def stepC : Step := { id := "c", run := "echo c", needs := some ["b"] }

/-- The Scenario A ability. -/
def scenarioAAbility : Ability := { name := "scenario-a", steps := [stepA, stepB, stepC] }

/-- A context whose spawn oracle makes `exit 1` exit with code 1 and
everything else succeed with code 0. -/
def scenarioACtx : ExecutorContext :=
  { cwd := "/w", env := [],
    run := fun req =>
      if req.command = "exit 1" then .ok "" "" (some 1) else .ok "out" "" (some 0) }

/-- Witness for C3 (Scenario A): step `a` fails, the execution is `failed`
with only `a`'s failed result recorded; `b` and `c` never run. -/
theorem executeAbility_stop_on_failure_witness :
    (validateInputs scenarioACtx.regexTest scenarioAAbility [] = [] ∧
     buildExecutionOrder scenarioAAbility.steps = [] ++ stepA :: [stepB, stepC] ∧
     stepA.on_failure.getD "stop" = "stop" ∧
     (stepResultOf scenarioACtx (applyDefaults [] (scenarioAAbility.inputs.getD [])) stepA).status
       = "failed") ∧
    ((executeAbility scenarioAAbility [] scenarioACtx).status = "failed" ∧
     (executeAbility scenarioAAbility [] scenarioACtx).error
       = (stepResultOf scenarioACtx (applyDefaults [] (scenarioAAbility.inputs.getD [])) stepA).error ∧
     (executeAbility scenarioAAbility [] scenarioACtx).completedSteps
       = ([] ++ [stepA]).map
           (stepResultOf scenarioACtx (applyDefaults [] (scenarioAAbility.inputs.getD [])))) :=
  ⟨⟨rfl, by decide, rfl, by decide⟩,
   executeAbility_stop_on_failure scenarioAAbility [] scenarioACtx [] stepA [stepB, stepC]
     rfl (by decide) rfl (by simp) (by decide)⟩

/-!
## Claim C8: missing required input
-/

/-- C8: an ability declaring a required input with no default, called with
that input omitted, fails immediately: `validateInputs` reports
MISSING_INPUT naming the input, and `executeAbility` returns status
`failed` with empty `completedSteps` (zero steps run) and the
input-validation error message. -/
theorem executeAbility_missing_input (ability : Ability) (inputs : InputValues)
    (ctx : ExecutorContext) (name : String) (defn : InputDefinition)
    (hmem : (name, defn) ∈ ability.inputs.getD [])
    (hreq : defn.required.getD false = true)
    (hdef : defn.default = none)
    (hmiss : lookupVal inputs name = none) :
    ({ path := "inputs." ++ name,
       message := "Required input '" ++ name ++ "' is missing",
       code := "MISSING_INPUT" } : ValidationError)
        ∈ validateInputs ctx.regexTest ability inputs ∧
    (executeAbility ability inputs ctx).status = "failed" ∧
    (executeAbility ability inputs ctx).completedSteps = [] ∧
    (executeAbility ability inputs ctx).error
      = some ("Input validation failed: " ++ String.intercalate ", "
          ((validateInputs ctx.regexTest ability inputs).map ValidationError.message)) := by
  have herr : ({ path := "inputs." ++ name,
                 message := "Required input '" ++ name ++ "' is missing",
                 code := "MISSING_INPUT" } : ValidationError)
        ∈ validateInputs ctx.regexTest ability inputs := by
    unfold validateInputs
    rw [List.mem_flatMap]
    refine ⟨(name, defn), hmem, ?_⟩
    simp [errorsForEntry, hmiss, hreq, hdef]
  have hne : (validateInputs ctx.regexTest ability inputs).isEmpty = false := by
    cases hv : validateInputs ctx.regexTest ability inputs with
    | nil => rw [hv] at herr; simp at herr
    | cons e es => rfl
  have hexec : executeAbility ability inputs ctx
      = { id := generateExecutionId ctx, ability := ability, inputs := inputs, status := "failed", currentStep := none, currentStepIndex := -1, completedSteps := [], pendingSteps := ability.steps, startedAt := ctx.now, completedAt := some ctx.now, error := some ("Input validation failed: " ++ String.intercalate ", " ((validateInputs ctx.regexTest ability inputs).map ValidationError.message)) } := by
    simp only [executeAbility]
    rw [hne]
    exact rfl
  rw [hexec]
  exact ⟨herr, rfl, rfl, rfl⟩

/-- Scenario D's ability: one required string input `name` without a
default, one greeting step. -/
def scenarioDAbility : Ability :=
  { name := "greet"
    inputs := some [("name", { type := "string", required := some true })]
    steps := [{ id := "greet", run := "echo \"Hello \x7b\x7binputs.name\x7d\x7d\"" }] }

/-- Witness for C8 (Scenario D): calling with no inputs fails immediately
with the MISSING_INPUT validation error and zero steps run. -/
theorem executeAbility_missing_input_witness :
    ((("name", ({ type := "string", required := some true } : InputDefinition)))
        ∈ scenarioDAbility.inputs.getD [] ∧
      lookupVal [] "name" = none) ∧
    (({ path := "inputs." ++ "name",
        message := "Required input '" ++ "name" ++ "' is missing",
        code := "MISSING_INPUT" } : ValidationError)
         ∈ validateInputs scenarioACtx.regexTest scenarioDAbility [] ∧
     (executeAbility scenarioDAbility [] scenarioACtx).status = "failed" ∧
     (executeAbility scenarioDAbility [] scenarioACtx).completedSteps = [] ∧
     (executeAbility scenarioDAbility [] scenarioACtx).error
       = some ("Input validation failed: " ++ String.intercalate ", "
           ((validateInputs scenarioACtx.regexTest scenarioDAbility []).map
             ValidationError.message))) :=
  ⟨⟨by simp [scenarioDAbility], rfl⟩,
   executeAbility_missing_input scenarioDAbility [] scenarioACtx "name"
     { type := "string", required := some true } (by simp [scenarioDAbility]) rfl rfl rfl⟩

/-!
## Claim C7: spawn failures
-/

/-- A step with no validation whose command does not exist. -/
def nosuchStep : Step := { id := "ghost", run := "nosuchcmd" }

/-- A context whose spawn oracle always fails with an ENOENT-style error. -/
def spawnErrCtx : ExecutorContext :=
  { cwd := "/w", env := [], run := fun _ => .err "" "spawn nosuchcmd ENOENT" }

/-- A bare execution to run single steps against. -/
def plainExec : AbilityExecution :=
  { id := "exec_3_z", ability := { name := "ghostly", steps := [nosuchStep] }, inputs := []
    status := "running" }

/-- Counterexample to C7: a spawn failure on a step with no declared
validation yields a StepResult with status `completed` — not `failed` —
and the spawn error text lands in `output`, not `error`. -/
theorem executeScriptStep_spawn_error_counterexample :
    (executeScriptStep nosuchStep plainExec spawnErrCtx).status = "completed" ∧
    (executeScriptStep nosuchStep plainExec spawnErrCtx).status ≠ "failed" ∧
    (executeScriptStep nosuchStep plainExec spawnErrCtx).error = none ∧
    (executeScriptStep nosuchStep plainExec spawnErrCtx).output
      = some "spawn nosuchcmd ENOENT" := by
  refine ⟨rfl, ?_, rfl, rfl⟩
  intro h
  rw [show (executeScriptStep nosuchStep plainExec spawnErrCtx).status = "completed" from rfl] at h
  simp at h

/-- C7 (amended): a spawn failure resolves (never throws) with the spawn
error message as stderr and exit code 1; the StepResult is `failed` — with
an exit-code error message — exactly when the step declares a
`validation.exit_code` different from 1, and otherwise `completed`; the
spawn error text is the captured output whenever stdout is empty. -/
theorem executeScriptStep_spawn_error (step : Step) (ex : AbilityExecution)
    (ctx : ExecutorContext) (stdoutAcc msg : String)
    (hrun : ctx.run { command := interpolateVariables step.run ex.inputs,
                      cwd := step.cwd.getD ctx.cwd,
                      env := mergeEnv ctx.env step.env } = .err stdoutAcc msg) :
    (executeScriptStep step ex ctx).output
      = some (if stdoutAcc ≠ "" then stdoutAcc else msg) ∧
    (∀ expected, step.validation.bind StepValidation.exit_code = some expected →
      expected ≠ 1 →
      (executeScriptStep step ex ctx).status = "failed" ∧
      (executeScriptStep step ex ctx).error
        = some ("Exit code " ++ toString (1 : Int) ++ ", expected " ++ toString expected)) ∧
    (step.validation.bind StepValidation.exit_code = none →
      (executeScriptStep step ex ctx).status = "completed" ∧
      (executeScriptStep step ex ctx).error = none) ∧
    (step.validation.bind StepValidation.exit_code = some 1 →
      (executeScriptStep step ex ctx).status = "completed" ∧
      (executeScriptStep step ex ctx).error = none) := by
  cases hv : step.validation with
  | none =>
    refine ⟨?_, ?_, ?_, ?_⟩ <;> simp [executeScriptStep, runScript, hrun, hv]
  | some v =>
    cases hc : v.exit_code with
    | none =>
      refine ⟨?_, ?_, ?_, ?_⟩ <;> simp [executeScriptStep, runScript, hrun, hv, hc]
    | some expected =>
      by_cases h1 : expected = 1
      · subst h1
        refine ⟨?_, ?_, ?_, ?_⟩ <;> simp [executeScriptStep, runScript, hrun, hv, hc]
      · have h1' : (1 : Int) ≠ expected := fun h => h1 h.symm
        refine ⟨?_, ?_, ?_, ?_⟩ <;>
          simp [executeScriptStep, runScript, hrun, hv, hc, h1, h1']

/-- Witness for C7 (amended): the missing-command step with no validation
resolves as completed with the spawn error text as output. -/
theorem executeScriptStep_spawn_error_witness :
    (spawnErrCtx.run { command := interpolateVariables nosuchStep.run plainExec.inputs,
                       cwd := nosuchStep.cwd.getD spawnErrCtx.cwd,
                       env := mergeEnv spawnErrCtx.env nosuchStep.env }
      = .err "" "spawn nosuchcmd ENOENT") ∧
    ((executeScriptStep nosuchStep plainExec spawnErrCtx).output
       = some (if "" ≠ "" then "" else "spawn nosuchcmd ENOENT") ∧
     (∀ expected, nosuchStep.validation.bind StepValidation.exit_code = some expected →
       expected ≠ 1 →
       (executeScriptStep nosuchStep plainExec spawnErrCtx).status = "failed" ∧
       (executeScriptStep nosuchStep plainExec spawnErrCtx).error
         = some ("Exit code " ++ toString (1 : Int) ++ ", expected " ++ toString expected)) ∧
     (nosuchStep.validation.bind StepValidation.exit_code = none →
       (executeScriptStep nosuchStep plainExec spawnErrCtx).status = "completed" ∧
       (executeScriptStep nosuchStep plainExec spawnErrCtx).error = none) ∧
     (nosuchStep.validation.bind StepValidation.exit_code = some 1 →
       (executeScriptStep nosuchStep plainExec spawnErrCtx).status = "completed" ∧
       (executeScriptStep nosuchStep plainExec spawnErrCtx).error = none)) :=
  ⟨rfl, executeScriptStep_spawn_error nosuchStep plainExec spawnErrCtx "" "spawn nosuchcmd ENOENT" rfl⟩

/-!
## Claim C5: variable interpolation
-/

/-- C5 (amended): `interpolateVariables` recognizes only the
`{{inputs.NAME}}` form.  A placeholder whose input is defined is replaced
by `String(value)`; one whose input is undefined is left verbatim; any
text with no `{{inputs.NAME}}` match at all — in particular every
`{{steps.STEPID.output}}` placeholder — passes through unchanged, and no
error is ever raised (the function is total). -/
theorem interpolateVariables_inputs_only (inputs : InputValues) (pre name post : String)
    (v : Value)
    (hpre : ∀ c ∈ pre.data, c ≠ '{')
    (hne : name.data ≠ []) (hword : ∀ c ∈ name.data, isWordChar c = true) :
    (lookupVal inputs name = some v →
      interpolateVariables (pre ++ "\x7b\x7binputs." ++ name ++ "\x7d\x7d" ++ post) inputs
        = pre ++ displayValue v ++ interpolateVariables post inputs) ∧
    (lookupVal inputs name = none →
      interpolateVariables (pre ++ "\x7b\x7binputs." ++ name ++ "\x7d\x7d" ++ post) inputs
        = pre ++ "\x7b\x7binputs." ++ name ++ "\x7d\x7d" ++ interpolateVariables post inputs) ∧
    (∀ text : String, findMatch text.data = none →
      interpolateVariables text inputs = text) := by
  refine ⟨?_, ?_, fun text h => Interp.interp_no_match h⟩
  · intro hsome
    have hrepl : String.mk (replacementFor inputs name.data) = displayValue v := by
      unfold replacementFor
      rw [show String.mk name.data = name from rfl, hsome]
    rw [Interp.interp_step inputs pre name post hpre hne hword, hrepl]
  · intro hnone
    have hrepl : String.mk (replacementFor inputs name.data)
        = "\x7b\x7binputs." ++ name ++ "\x7d\x7d" := by
      unfold replacementFor
      rw [show String.mk name.data = name from rfl, hnone]
      exact rfl
    rw [Interp.interp_step inputs pre name post hpre hne hword, hrepl]
    simp [String.append_assoc]

/-- Scenario C's inputs. -/
def scenarioCInputs : InputValues := [("name", .vstr "World")]

/-- Witness for C5 (amended), Scenario C: `name="World"` interpolated into
`echo "Hello {{inputs.name}}"` produces `Hello World`; the direct
evaluation is included alongside the theorem instance. -/
theorem interpolateVariables_inputs_only_witness :
    ((∀ c ∈ ("echo \"Hello " : String).data, c ≠ '{') ∧
     ("name" : String).data ≠ [] ∧ (∀ c ∈ ("name" : String).data, isWordChar c = true) ∧
     lookupVal scenarioCInputs "name" = some (.vstr "World") ∧
     interpolateVariables "echo \"Hello \x7b\x7binputs.name\x7d\x7d\"" scenarioCInputs
       = "echo \"Hello World\"") ∧
    ((lookupVal scenarioCInputs "name" = some (.vstr "World") →
      interpolateVariables ("echo \"Hello " ++ "\x7b\x7binputs." ++ "name" ++ "\x7d\x7d" ++ "\"")
          scenarioCInputs
        = "echo \"Hello " ++ displayValue (.vstr "World")
          ++ interpolateVariables "\"" scenarioCInputs) ∧
     (lookupVal scenarioCInputs "name" = none →
      interpolateVariables ("echo \"Hello " ++ "\x7b\x7binputs." ++ "name" ++ "\x7d\x7d" ++ "\"")
          scenarioCInputs
        = "echo \"Hello " ++ "\x7b\x7binputs." ++ "name" ++ "\x7d\x7d"
          ++ interpolateVariables "\"" scenarioCInputs) ∧
    (∀ text : String, findMatch text.data = none →
      interpolateVariables text scenarioCInputs = text)) :=
  ⟨⟨by decide, by decide, by decide, rfl, by decide⟩,
   interpolateVariables_inputs_only scenarioCInputs "echo \"Hello " "name" "\"" (.vstr "World")
     (by decide) (by decide) (by decide)⟩

/-- The two context-passing steps from the repository's own
`context-passing.test.ts` scenario (unquoted form). -/
def ctxPassAbility : Ability :=
  { name := "ctx-pass"
    steps := [{ id := "first", run := "echo FirstOutput" },
              { id := "second", run := "echo Got: \x7b\x7bsteps.first.output\x7d\x7d", needs := some ["first"] }] }

/-- An oracle that reports the executed command itself as stdout, exposing
exactly what command text each step ran. -/
def echoCtx : ExecutorContext :=
  { cwd := "/w", env := [], run := fun req => .ok req.command "" (some 0) }

/-- Counterexample to C5: with step `first` completed (output recorded),
the step `second`'s `{{steps.first.output}}` placeholder is NOT replaced
by `first`'s captured output — the executed command (observed through the
oracle) still carries the placeholder verbatim. -/
theorem interpolate_steps_placeholder_counterexample :
    interpolateVariables "echo Got: \x7b\x7bsteps.first.output\x7d\x7d" []
      = "echo Got: \x7b\x7bsteps.first.output\x7d\x7d" ∧
    (executeAbility ctxPassAbility [] echoCtx).completedSteps.map StepResult.output
      = [some "echo FirstOutput", some "echo Got: \x7b\x7bsteps.first.output\x7d\x7d"] ∧
    (executeAbility ctxPassAbility [] echoCtx).status = "completed" := by
  refine ⟨by decide, by decide, rfl⟩

/-!
## Claim C4: `on_failure: continue` (Scenario E)
-/

/-- Scenario E's failing step, explicitly declaring `on_failure: continue`
(accepted by the validator schema). -/
def stepFailCont : Step :=
  { id := "fail", run := "exit 1", validation := some { exit_code := some 0 },
    on_failure := some "continue" }

/-- Scenario E's follow-up step. -/
def stepAfter : Step := { id := "after", run := "echo after" }

/-- The Scenario E ability. -/
def scenarioEAbility : Ability := { name := "continue-demo", steps := [stepFailCont, stepAfter] }

/-- C4 (code evaluation at the failing input): Scenario E — the repository's
own `executor.test.ts` asserts overall status `completed` with both steps
recorded — actually aborts after `fail`: the executor never reads
`on_failure`, so the run ends `failed` with only `fail` in
`completedSteps` and `after` never runs. -/
theorem executeAbility_scenarioE_stops :
    stepFailCont.on_failure = some "continue" ∧
    (executeAbility scenarioEAbility [] scenarioACtx).status = "failed" ∧
    (executeAbility scenarioEAbility [] scenarioACtx).completedSteps.map StepResult.stepId
      = ["fail"] ∧
    (executeAbility scenarioEAbility [] scenarioACtx).completedSteps.map StepResult.status
      = ["failed"] ∧
    (executeAbility scenarioEAbility [] scenarioACtx).status ≠ "completed" := by
  refine ⟨rfl, by decide, by decide, by decide, by decide⟩
